import Mathlib

/-!
Verification of the PortStudy adaptive-progression engine and
tamper-resistant persistence layer.

The development is a shallow embedding of `src/portstudy`:

* `core/game_state.py` — `GameState` with the bitfield/base64/CRC16 codec
  (`_bitfield_to_base64`, `_base64_to_bitfield`, `_compute_checksum`,
  `to_dict`, `from_dict`);
* `config/settings.py` — `LEVEL_REQUIREMENTS`, `SAVE_INTEGRITY_KEYS`;
* `ui/menu.py` — `check_level_progress`, `check_difficulty_regression`,
  `_process_answer`;
* `core/state_manager.py` — the primary/backup save rotation.

Conventions of the embedding:

* Python `bytes` values are `List Nat` with entries below 256; Python
  strings are `List Char`.
* Python slices `s[a:b]` are `(s.drop a).take (b - a)`; slicing in Python
  is total (it truncates instead of raising), and `List.take`/`List.drop`
  have exactly that behaviour.
* `int.from_bytes(b, 'big')` is `beNat`; `v.to_bytes(n, 'big')` is
  `natToBytesBE v n` (Python raises OverflowError when `v ≥ 256 ^ n`;
  the program only ever converts values below the bound, which the
  round-trip theorems require as a hypothesis).
* `bin(v)[2:]` is `natBits v` (minimal binary string, `[false]` for 0)
  and `.zfill(w)` is `leftPadFalse w`.
* Floating point only enters through
  `(correct / len(window)) * 100 >= threshold` (and the strict `<`
  variant); for every window length up to 200 and every threshold used by
  the program this comparison provably coincides with the exact rational
  comparison, checked exhaustively against CPython, so it is embedded as
  the integer comparison `100 * correct ≥ threshold * len`.
* Fallible Python code (raising `ValueError` / `binascii.Error` /
  `KeyError`) is embedded with `Except`/`Option` results.
-/

namespace PortStudy

/-! ## Python integer/bytes/bit-string primitives -/

/-- Big-endian byte-list to natural number: `int.from_bytes(bs, 'big')`.
`int.from_bytes(b'', 'big') = 0`. -/
def beNat (bs : List Nat) : Nat := bs.foldl (fun acc b => acc * 256 + b) 0

/-- Big-endian fixed-width bytes of a natural number: `v.to_bytes(n, 'big')`. -/
def natToBytesBE (v : Nat) : Nat → List Nat
  | 0 => []
  | n + 1 => natToBytesBE (v / 256) n ++ [v % 256]

/-- Value of a big-endian bit string: `int(bits, 2)` (for a nonempty bit
string; on `[]` Python would raise, the program never does that). -/
def bitsToNat (bits : List Bool) : Nat :=
  bits.foldl (fun acc b => 2 * acc + (if b then 1 else 0)) 0

/-- Fuel-driven minimal binary expansion, most significant bit first. -/
def natBitsAux : Nat → Nat → List Bool
  | 0, _ => []
  | fuel + 1, v =>
    if v < 2 then [decide (v % 2 = 1)]
    else natBitsAux fuel (v / 2) ++ [decide (v % 2 = 1)]

/-- Minimal big-endian binary expansion of `v`: the bit string `bin(v)[2:]`.
`natBits 0 = [false]`, matching `bin(0)[2:] = "0"`. -/
def natBits (v : Nat) : List Bool := natBitsAux (v + 1) v

/-- Fixed-width big-endian binary expansion (width `k`). -/
def kBits : Nat → Nat → List Bool
  | 0, _ => []
  | k + 1, v => kBits k (v / 2) ++ [decide (v % 2 = 1)]

/-- Left-pad a bit string with `false` up to width `w`: `s.zfill(w)`
(no truncation when the string is already longer). -/
def leftPadFalse (w : Nat) (l : List Bool) : List Bool :=
  List.replicate (w - l.length) false ++ l

theorem beNat_append_singleton (l : List Nat) (b : Nat) :
    beNat (l ++ [b]) = 256 * beNat l + b := by
  simp [beNat, List.foldl_append]
  ring

theorem length_natToBytesBE (v n : Nat) : (natToBytesBE v n).length = n := by
  induction n generalizing v with
  | zero => rfl
  | succ n ih => simp [natToBytesBE, ih]

theorem beNat_natToBytesBE (n : Nat) (v : Nat) (h : v < 256 ^ n) :
    beNat (natToBytesBE v n) = v := by
  induction n generalizing v with
  | zero =>
    interval_cases v
    rfl
  | succ n ih =>
    have hdiv : v / 256 < 256 ^ n := by
      rw [Nat.div_lt_iff_lt_mul (by norm_num)]
      calc v < 256 ^ (n + 1) := h
        _ = 256 ^ n * 256 := by ring
    simp only [natToBytesBE, beNat_append_singleton, ih _ hdiv]
    omega

theorem mem_natToBytesBE_lt (v n b : Nat) (h : b ∈ natToBytesBE v n) : b < 256 := by
  induction n generalizing v with
  | zero => simp [natToBytesBE] at h
  | succ n ih =>
    simp only [natToBytesBE, List.mem_append, List.mem_singleton] at h
    rcases h with h | h
    · exact ih _ h
    · omega

theorem bitsToNat_append_singleton (l : List Bool) (b : Bool) :
    bitsToNat (l ++ [b]) = 2 * bitsToNat l + (if b then 1 else 0) := by
  simp [bitsToNat, List.foldl_append]

theorem bitsToNat_foldl_lt (l : List Bool) (a : Nat) :
    l.foldl (fun acc b => 2 * acc + (if b then 1 else 0)) a < (a + 1) * 2 ^ l.length := by
  induction l generalizing a with
  | nil => simpa using Nat.lt_succ_self a
  | cons b t ih =>
    have h1 := ih (2 * a + (if b then 1 else 0))
    have h2 : (2 * a + (if b then 1 else 0) + 1) * 2 ^ t.length ≤ (a + 1) * 2 ^ (t.length + 1) := by
      have : 2 * a + (if b then 1 else 0) + 1 ≤ (a + 1) * 2 := by
        cases b <;> simp <;> omega
      calc (2 * a + (if b then 1 else 0) + 1) * 2 ^ t.length
          ≤ ((a + 1) * 2) * 2 ^ t.length := Nat.mul_le_mul_right _ this
        _ = (a + 1) * 2 ^ (t.length + 1) := by ring
    calc (b :: t).foldl (fun acc b => 2 * acc + (if b then 1 else 0)) a
        = t.foldl (fun acc b => 2 * acc + (if b then 1 else 0)) (2 * a + (if b then 1 else 0)) := rfl
      _ < (2 * a + (if b then 1 else 0) + 1) * 2 ^ t.length := h1
      _ ≤ (a + 1) * 2 ^ (t.length + 1) := h2
      _ = (a + 1) * 2 ^ (b :: t).length := by simp

theorem bitsToNat_lt (l : List Bool) : bitsToNat l < 2 ^ l.length := by
  have := bitsToNat_foldl_lt l 0
  simpa [bitsToNat] using this

theorem kBits_length (k v : Nat) : (kBits k v).length = k := by
  induction k generalizing v with
  | zero => rfl
  | succ k ih => simp [kBits, ih]

theorem kBits_zero (k : Nat) : kBits k 0 = List.replicate k false := by
  induction k with
  | zero => rfl
  | succ k ih => rw [kBits, Nat.zero_div, ih, List.replicate_succ']; rfl

theorem kBits_bitsToNat (l : List Bool) : kBits l.length (bitsToNat l) = l := by
  induction l using List.reverseRecOn with
  | nil => rfl
  | append_singleton t b ih =>
    have hlen : (t ++ [b]).length = t.length + 1 := by simp
    rw [hlen, bitsToNat_append_singleton, kBits]
    have hdiv : (2 * bitsToNat t + (if b then 1 else 0)) / 2 = bitsToNat t := by
      cases b <;> simp <;> omega
    have hmod : decide ((2 * bitsToNat t + (if b then 1 else 0)) % 2 = 1) = b := by
      cases b <;> simp [Nat.mul_add_mod]
    rw [hdiv, hmod, ih]

theorem natBitsAux_congr (fuel₁ : Nat) :
    ∀ fuel₂ v, v < fuel₁ → v < fuel₂ → natBitsAux fuel₁ v = natBitsAux fuel₂ v := by
  induction fuel₁ with
  | zero => omega
  | succ f ih =>
    intro fuel₂ v h1 h2
    cases fuel₂ with
    | zero => omega
    | succ f2 =>
      by_cases hv : v < 2
      · simp [natBitsAux, hv]
      · have hrec1 : v / 2 < f := by omega
        have hrec2 : v / 2 < f2 := by omega
        simp only [natBitsAux, if_neg hv]
        rw [ih f2 (v / 2) hrec1 hrec2]

theorem natBits_unfold (v : Nat) :
    natBits v = if v < 2 then [decide (v % 2 = 1)]
                else natBits (v / 2) ++ [decide (v % 2 = 1)] := by
  have h1 : natBits v
      = if v < 2 then [decide (v % 2 = 1)]
        else natBitsAux v (v / 2) ++ [decide (v % 2 = 1)] := rfl
  by_cases hv : v < 2
  · simp [h1, hv]
  · rw [h1, if_neg hv, if_neg hv,
      natBitsAux_congr v (v / 2 + 1) (v / 2) (by omega) (by omega)]
    rfl

theorem natBits_length_le (k : Nat) :
    ∀ v, v < 2 ^ k → 0 < k → (natBits v).length ≤ k := by
  induction k with
  | zero => omega
  | succ k ih =>
    intro v hv _
    by_cases h2 : v < 2
    · rw [natBits_unfold, if_pos h2]
      simp
    · have hk : 0 < k := by
        by_contra hk0
        have : k = 0 := by omega
        subst this
        simp at hv
        omega
      have hdiv : v / 2 < 2 ^ k := by
        rw [Nat.div_lt_iff_lt_mul (by norm_num)]
        calc v < 2 ^ (k + 1) := hv
          _ = 2 ^ k * 2 := by ring
      rw [natBits_unfold, if_neg h2]
      simp only [List.length_append, List.length_singleton]
      have := ih (v / 2) hdiv hk
      omega

theorem leftPadFalse_natBits (k : Nat) :
    ∀ v, v < 2 ^ k → 0 < k → leftPadFalse k (natBits v) = kBits k v := by
  induction k with
  | zero => omega
  | succ k ih =>
    intro v hv _
    by_cases h2 : v < 2
    · have hv2 : v / 2 = 0 := by omega
      rw [natBits_unfold, if_pos h2, kBits, hv2, kBits_zero]
      simp only [leftPadFalse, List.length_singleton]
      have hk1 : k + 1 - 1 = k := by omega
      rw [hk1]
    · have hk : 0 < k := by
        by_contra hk0
        have : k = 0 := by omega
        subst this
        simp at hv
        omega
      have hdiv : v / 2 < 2 ^ k := by
        rw [Nat.div_lt_iff_lt_mul (by norm_num)]
        calc v < 2 ^ (k + 1) := hv
          _ = 2 ^ k * 2 := by ring
      have hlen : (natBits (v / 2)).length ≤ k := natBits_length_le k (v / 2) hdiv hk
      rw [natBits_unfold, if_neg h2, kBits]
      rw [← ih (v / 2) hdiv hk]
      simp only [leftPadFalse, List.length_append, List.length_singleton]
      have harith : k + 1 - ((natBits (v / 2)).length + 1) = k - (natBits (v / 2)).length := by
        omega
      rw [harith, ← List.append_assoc]

/-- Recover a nonempty bit string from its integer value, Python style:
`bin(int(l, 2))[2:].zfill(len(l)) = l`. -/
theorem zfill_natBits_bitsToNat (l : List Bool) (h : l ≠ []) :
    leftPadFalse l.length (natBits (bitsToNat l)) = l := by
  have hlen : 0 < l.length := List.length_pos.mpr h
  rw [leftPadFalse_natBits l.length (bitsToNat l) (bitsToNat_lt l) hlen]
  exact kBits_bitsToNat l

/-! ## zlib.crc32

`zlib.crc32` is the standard reflected CRC-32 (polynomial `0xEDB88320`,
initial value and final mask `0xFFFFFFFF`); the bit-serial reference
implementation is embedded directly. -/

/-- One shift-and-conditional-xor step of the reflected CRC-32. -/
def crcStep (c : Nat) : Nat := if c % 2 = 1 then (c / 2) ^^^ 0xEDB88320 else c / 2

/-- Fold one input byte into a CRC-32 accumulator (eight bit steps). -/
def crcByte (c b : Nat) : Nat :=
  crcStep (crcStep (crcStep (crcStep (crcStep (crcStep (crcStep (crcStep (c ^^^ b))))))))

/-- `zlib.crc32(bs)`. In particular `crc32 [] = 0`. -/
def crc32 (bs : List Nat) : Nat := (bs.foldl crcByte 0xFFFFFFFF) ^^^ 0xFFFFFFFF

/-- `GameState._compute_checksum`: low 16 CRC bits, XORed with the
type-specific key. -/
def computeChecksum (data : List Nat) (key : Nat) : Nat :=
  (crc32 data &&& 0xFFFF) ^^^ key

theorem computeChecksum_lt (data : List Nat) (key : Nat) (hk : key < 65536) :
    computeChecksum data key < 65536 := by
  have h1 : crc32 data &&& 0xFFFF < 2 ^ 16 := by
    have := Nat.and_le_right (n := crc32 data) (m := 0xFFFF)
    omega
  exact Nat.xor_lt_two_pow (n := 16) h1 hk

/-! ## base64 (`base64.b64encode` / `base64.b64decode`)

Encoding is the standard 3-bytes-to-4-characters scheme with `=` padding.
Decoding models CPython's non-strict `binascii.a2b_base64` exactly:
non-alphabet characters are skipped, `=` at quad position ≥ 2 with enough
accumulated padding terminates decoding successfully, stray `=` elsewhere
is ignored (resetting on data characters), and a final partial quad of
one, two or three characters is an error (`binascii.Error`, a `ValueError`).
`b64decode` of a `str` first requires pure ASCII. -/

/-- Decode-stage errors of the persistence layer: malformed base-64
(`binascii.Error` / ASCII error from `b64decode`) or the explicit
integrity-check `ValueError` raised by `_base64_to_bitfield`. -/
inductive DecErr where
  | badBase64 : DecErr
  | integrity : DecErr
deriving DecidableEq

instance exceptDecEq {ε α : Type _} [DecidableEq ε] [DecidableEq α] :
    DecidableEq (Except ε α) := fun x y =>
  match x, y with
  | .error a, .error b =>
    if h : a = b then .isTrue (by rw [h]) else .isFalse (fun hh => h (Except.error.inj hh))
  | .ok a, .ok b =>
    if h : a = b then .isTrue (by rw [h]) else .isFalse (fun hh => h (Except.ok.inj hh))
  | .error _, .ok _ => .isFalse (fun hh => Except.noConfusion hh)
  | .ok _, .error _ => .isFalse (fun hh => Except.noConfusion hh)

/-- The standard base-64 alphabet. -/
def b64Alphabet : List Char :=
  "ABCDEFGHIJKLMNOPQRSTUVWXYZabcdefghijklmnopqrstuvwxyz0123456789+/".toList

/-- Character of a 6-bit value. -/
def alphaChar (v : Nat) : Char := b64Alphabet.getD v 'A'

/-- 6-bit value of a character, `none` for non-alphabet characters. -/
def b64Val (c : Char) : Option Nat := b64Alphabet.findIdx? (fun x => x = c)

/-- `base64.b64encode`, 3 input bytes per 4 output characters. -/
def b64encode : List Nat → List Char
  | [] => []
  | [a] => [alphaChar (a / 4), alphaChar (a % 4 * 16), '=', '=']
  | [a, b] => [alphaChar (a / 4), alphaChar (a % 4 * 16 + b / 16),
               alphaChar (b % 16 * 4), '=']
  | a :: b :: c :: rest =>
    [alphaChar (a / 4), alphaChar (a % 4 * 16 + b / 16),
     alphaChar (b % 16 * 4 + c / 64), alphaChar (c % 64)] ++ b64encode rest

/-- The quad-position state machine of CPython's `binascii.a2b_base64`
(non-strict mode): arguments are input, output bytes, quad position,
accumulated bits, consecutive padding count. -/
def b64decodeLoop : List Char → List Nat → Nat → Nat → Nat → Except DecErr (List Nat)
  | [], out, quadPos, _, _ =>
    if quadPos = 0 then .ok out else .error .badBase64
  | c :: rest, out, quadPos, leftchar, pads =>
    if c = '=' then
      if 2 ≤ quadPos ∧ 4 ≤ quadPos + (pads + 1) then .ok out
      else b64decodeLoop rest out quadPos leftchar (pads + 1)
    else
      match b64Val c with
      | none => b64decodeLoop rest out quadPos leftchar pads
      | some v =>
        match quadPos with
        | 0 => b64decodeLoop rest out 1 (leftchar * 64 + v) 0
        | 1 => b64decodeLoop rest (out ++ [(leftchar * 64 + v) / 16]) 2
                 ((leftchar * 64 + v) % 16) 0
        | 2 => b64decodeLoop rest (out ++ [(leftchar * 64 + v) / 4]) 3
                 ((leftchar * 64 + v) % 4) 0
        | _ => b64decodeLoop rest (out ++ [leftchar * 64 + v]) 0 0 0

/-- `base64.b64decode` on a `str` argument (non-strict, `validate=False`). -/
def b64decode (s : List Char) : Except DecErr (List Nat) :=
  if s.any (fun c => 127 < c.toNat) then .error .badBase64
  else b64decodeLoop s [] 0 0 0

theorem alphaChar_spec :
    ∀ v : Fin 64, b64Val (alphaChar v.val) = some v.val
      ∧ alphaChar v.val ≠ '=' ∧ (alphaChar v.val).toNat ≤ 127 := by decide

theorem b64Val_alphaChar (v : Nat) (h : v < 64) : b64Val (alphaChar v) = some v :=
  (alphaChar_spec ⟨v, h⟩).1

theorem alphaChar_ne_pad (v : Nat) (h : v < 64) : alphaChar v ≠ '=' :=
  (alphaChar_spec ⟨v, h⟩).2.1

theorem alphaChar_ascii (v : Nat) (h : v < 64) : (alphaChar v).toNat ≤ 127 :=
  (alphaChar_spec ⟨v, h⟩).2.2

theorem b64encode_ascii (bs : List Nat) (hbs : ∀ b ∈ bs, b < 256) :
    ∀ c ∈ b64encode bs, c.toNat ≤ 127 := by
  induction bs using b64encode.induct with
  | case1 => simp [b64encode]
  | case2 a =>
    intro c hc
    have ha := hbs a (by simp)
    simp only [b64encode, List.mem_cons, List.not_mem_nil, or_false] at hc
    rcases hc with h | h | h | h <;> subst h
    · exact alphaChar_ascii _ (by omega)
    · exact alphaChar_ascii _ (by omega)
    · decide
    · decide
  | case3 a b =>
    intro c hc
    have ha := hbs a (by simp)
    have hb := hbs b (by simp)
    simp only [b64encode, List.mem_cons, List.not_mem_nil, or_false] at hc
    rcases hc with h | h | h | h <;> subst h
    · exact alphaChar_ascii _ (by omega)
    · exact alphaChar_ascii _ (by omega)
    · exact alphaChar_ascii _ (by omega)
    · decide
  | case4 a b c rest ih =>
    intro x hx
    have ha := hbs a (by simp)
    have hb := hbs b (by simp)
    have hc := hbs c (by simp)
    simp only [b64encode, List.cons_append, List.nil_append, List.mem_cons] at hx
    rcases hx with h | h | h | h | h
    · subst h; exact alphaChar_ascii _ (by omega)
    · subst h; exact alphaChar_ascii _ (by omega)
    · subst h; exact alphaChar_ascii _ (by omega)
    · subst h; exact alphaChar_ascii _ (by omega)
    · exact ih (fun y hy => hbs y (by simp [hy])) x h

theorem b64decodeLoop_data0 (c : Char) (rest : List Char) (out : List Nat)
    (leftchar pads v : Nat) (hc : c ≠ '=') (hv : b64Val c = some v) :
    b64decodeLoop (c :: rest) out 0 leftchar pads =
      b64decodeLoop rest out 1 (leftchar * 64 + v) 0 := by
  simp [b64decodeLoop, if_neg hc, hv]

theorem b64decodeLoop_data1 (c : Char) (rest : List Char) (out : List Nat)
    (leftchar pads v : Nat) (hc : c ≠ '=') (hv : b64Val c = some v) :
    b64decodeLoop (c :: rest) out 1 leftchar pads =
      b64decodeLoop rest (out ++ [(leftchar * 64 + v) / 16]) 2
        ((leftchar * 64 + v) % 16) 0 := by
  simp [b64decodeLoop, if_neg hc, hv]

theorem b64decodeLoop_data2 (c : Char) (rest : List Char) (out : List Nat)
    (leftchar pads v : Nat) (hc : c ≠ '=') (hv : b64Val c = some v) :
    b64decodeLoop (c :: rest) out 2 leftchar pads =
      b64decodeLoop rest (out ++ [(leftchar * 64 + v) / 4]) 3
        ((leftchar * 64 + v) % 4) 0 := by
  simp [b64decodeLoop, if_neg hc, hv]

theorem b64decodeLoop_data3 (c : Char) (rest : List Char) (out : List Nat)
    (leftchar pads v : Nat) (hc : c ≠ '=') (hv : b64Val c = some v) :
    b64decodeLoop (c :: rest) out 3 leftchar pads =
      b64decodeLoop rest (out ++ [leftchar * 64 + v]) 0 0 0 := by
  simp [b64decodeLoop, if_neg hc, hv]

theorem b64decodeLoop_cons_pad (rest : List Char) (out : List Nat)
    (quadPos leftchar pads : Nat) :
    b64decodeLoop ('=' :: rest) out quadPos leftchar pads =
      if 2 ≤ quadPos ∧ 4 ≤ quadPos + (pads + 1) then .ok out
      else b64decodeLoop rest out quadPos leftchar (pads + 1) := by
  simp [b64decodeLoop]

theorem b64decodeLoop_encode (bs : List Nat) :
    ∀ (out : List Nat) (pads : Nat), (∀ b ∈ bs, b < 256) →
      b64decodeLoop (b64encode bs) out 0 0 pads = .ok (out ++ bs) := by
  induction bs using b64encode.induct with
  | case1 =>
    intro out pads _
    simp [b64encode, b64decodeLoop]
  | case2 a =>
    intro out pads hbs
    have ha : a < 256 := hbs a (by simp)
    show b64decodeLoop [alphaChar (a / 4), alphaChar (a % 4 * 16), '=', '='] out 0 0 pads
      = .ok (out ++ [a])
    rw [b64decodeLoop_data0 _ _ _ _ _ _
        (alphaChar_ne_pad _ (by omega)) (b64Val_alphaChar _ (by omega)),
      b64decodeLoop_data1 _ _ _ _ _ _
        (alphaChar_ne_pad _ (by omega)) (b64Val_alphaChar _ (by omega)),
      (by omega : ((0 * 64 + a / 4) * 64 + a % 4 * 16) / 16 = a),
      b64decodeLoop_cons_pad, if_neg (by omega),
      b64decodeLoop_cons_pad, if_pos (by omega)]
  | case3 a b =>
    intro out pads hbs
    have ha : a < 256 := hbs a (by simp)
    have hb : b < 256 := hbs b (by simp)
    show b64decodeLoop
        [alphaChar (a / 4), alphaChar (a % 4 * 16 + b / 16), alphaChar (b % 16 * 4), '=']
        out 0 0 pads = .ok (out ++ [a, b])
    rw [b64decodeLoop_data0 _ _ _ _ _ _
        (alphaChar_ne_pad _ (by omega)) (b64Val_alphaChar _ (by omega)),
      b64decodeLoop_data1 _ _ _ _ _ _
        (alphaChar_ne_pad _ (by omega)) (b64Val_alphaChar _ (by omega)),
      (by omega : ((0 * 64 + a / 4) * 64 + (a % 4 * 16 + b / 16)) / 16 = a),
      (by omega : ((0 * 64 + a / 4) * 64 + (a % 4 * 16 + b / 16)) % 16 = b / 16),
      b64decodeLoop_data2 _ _ _ _ _ _
        (alphaChar_ne_pad _ (by omega)) (b64Val_alphaChar _ (by omega)),
      (by omega : (b / 16 * 64 + b % 16 * 4) / 4 = b),
      b64decodeLoop_cons_pad, if_pos (by omega)]
    simp
  | case4 a b c rest ih =>
    intro out pads hbs
    have ha : a < 256 := hbs a (by simp)
    have hb : b < 256 := hbs b (by simp)
    have hc : c < 256 := hbs c (by simp)
    show b64decodeLoop
        (alphaChar (a / 4) :: alphaChar (a % 4 * 16 + b / 16) ::
          alphaChar (b % 16 * 4 + c / 64) :: alphaChar (c % 64) :: b64encode rest)
        out 0 0 pads = .ok (out ++ (a :: b :: c :: rest))
    rw [b64decodeLoop_data0 _ _ _ _ _ _
        (alphaChar_ne_pad _ (by omega)) (b64Val_alphaChar _ (by omega)),
      b64decodeLoop_data1 _ _ _ _ _ _
        (alphaChar_ne_pad _ (by omega)) (b64Val_alphaChar _ (by omega)),
      (by omega : ((0 * 64 + a / 4) * 64 + (a % 4 * 16 + b / 16)) / 16 = a),
      (by omega : ((0 * 64 + a / 4) * 64 + (a % 4 * 16 + b / 16)) % 16 = b / 16),
      b64decodeLoop_data2 _ _ _ _ _ _
        (alphaChar_ne_pad _ (by omega)) (b64Val_alphaChar _ (by omega)),
      (by omega : (b / 16 * 64 + (b % 16 * 4 + c / 64)) / 4 = b),
      (by omega : (b / 16 * 64 + (b % 16 * 4 + c / 64)) % 4 = c / 64),
      b64decodeLoop_data3 _ _ _ _ _ _
        (alphaChar_ne_pad _ (by omega)) (b64Val_alphaChar _ (by omega)),
      (by omega : c / 64 * 64 + c % 64 = c)]
    rw [List.append_assoc, List.append_assoc,
      ih (out ++ ([a] ++ ([b] ++ [c]))) 0 (fun y hy => hbs y (by simp [hy]))]
    simp

theorem b64decodeLoop_error (input : List Char) :
    ∀ out quadPos leftchar pads e,
      b64decodeLoop input out quadPos leftchar pads = .error e →
      e = DecErr.badBase64 := by
  induction input with
  | nil =>
    intro out quadPos leftchar pads e h
    simp only [b64decodeLoop] at h
    split at h
    · cases h
    · exact (Except.error.inj h).symm
  | cons c rest ih =>
    intro out quadPos leftchar pads e h
    simp only [b64decodeLoop] at h
    split at h
    · split at h
      · cases h
      · exact ih _ _ _ _ _ h
    · split at h
      · exact ih _ _ _ _ _ h
      · split at h
        all_goals exact ih _ _ _ _ _ h

theorem b64decode_error (s : List Char) (e : DecErr)
    (h : b64decode s = .error e) : e = DecErr.badBase64 := by
  rw [b64decode] at h
  split at h
  · exact (Except.error.inj h).symm
  · exact b64decodeLoop_error s [] 0 0 0 e h

/-- Round trip of the base-64 layer: decoding an encoding of a byte list
recovers it exactly. -/
theorem b64decode_b64encode (bs : List Nat) (hbs : ∀ b ∈ bs, b < 256) :
    b64decode (b64encode bs) = .ok bs := by
  have hascii : ((b64encode bs).any fun c => 127 < c.toNat) = false := by
    rw [List.any_eq_false]
    intro c hcmem
    have := b64encode_ascii bs hbs c hcmem
    simp only [decide_eq_true_eq]
    omega
  rw [b64decode, hascii]
  simpa using b64decodeLoop_encode bs [] 0 hbs

/-! ## Bounded deques (`collections.deque` with a `maxlen`) -/

/-- A Python `deque` with a fixed `maxlen`: appends beyond the capacity
evict the oldest (leftmost) entries. Every deque this program creates has
an integer `maxlen`. -/
structure BDeque where
  data : List Bool
  maxlen : Nat
deriving DecidableEq

/-- `deque(iterable, maxlen)`: keeps the last `maxlen` elements. -/
def BDeque.ofList (l : List Bool) (m : Nat) : BDeque :=
  ⟨l.drop (l.length - m), m⟩

/-- `deque.append`: evicts from the left when full. -/
def BDeque.append (d : BDeque) (b : Bool) : BDeque :=
  ⟨(d.data ++ [b]).drop (d.data.length + 1 - d.maxlen), d.maxlen⟩

theorem BDeque.ofList_length_le (l : List Bool) (m : Nat) :
    (BDeque.ofList l m).data.length ≤ m := by
  simp [BDeque.ofList]
  omega

theorem BDeque.ofList_of_le (l : List Bool) (m : Nat) (h : l.length ≤ m) :
    BDeque.ofList l m = ⟨l, m⟩ := by
  simp [BDeque.ofList, Nat.sub_eq_zero_of_le h]

theorem BDeque.append_length_le (d : BDeque) (b : Bool)
    (h : d.data.length ≤ d.maxlen) : (d.append b).data.length ≤ d.maxlen := by
  simp [BDeque.append]
  omega

/-! ## The bitfield codec (`GameState._bitfield_to_base64` /
`GameState._base64_to_bitfield`) -/

/-- `SAVE_INTEGRITY_KEYS["accuracy"]` from `config/settings.py`. -/
def SAVE_KEY_ACCURACY : Nat := 0x55AA

/-- `SAVE_INTEGRITY_KEYS["streak"]` from `config/settings.py`. -/
def SAVE_KEY_STREAK : Nat := 0xAA55

/-- `GameState._bitfield_to_base64`. Booleans are packed MSB-first,
zero-padded to a byte boundary; the buffer is
`[2B checksum][2B length][1B zero][packed bits]`, base-64 encoded.
(`length.to_bytes(2, 'big')` raises OverflowError for lengths ≥ 2^16;
as in the source, the value is simply converted, and the round-trip
theorems assume the in-range lengths the program produces.) -/
def bitfieldToBase64 (windowData : List Bool) (key : Nat) : List Char :=
  if windowData = [] then []
  else
    let length := windowData.length
    let paddedBits := windowData ++
      List.replicate ((length + 7) / 8 * 8 - length) false
    let lengthBytes := natToBytesBE length 2
    let separator := [0]
    let bitfieldBytes := natToBytesBE (bitsToNat paddedBits) ((paddedBits.length + 7) / 8)
    let dataForChecksum := lengthBytes ++ separator ++ bitfieldBytes
    let checksumBytes := natToBytesBE (computeChecksum dataForChecksum key) 2
    b64encode (checksumBytes ++ dataForChecksum)

/-- `GameState._base64_to_bitfield`. All slices are Python slices (total,
truncating); the only failure points are `base64.b64decode` and the
explicit checksum `ValueError`. -/
def base64ToBitfield (encodedData : List Char) (key : Nat) (maxlen : Nat) :
    Except DecErr BDeque :=
  if encodedData = [] then .ok ⟨[], maxlen⟩
  else
    match b64decode encodedData with
    | .error e => .error e
    | .ok allBytes =>
      let checksumBytes := allBytes.take 2
      let lengthBytes := (allBytes.drop 2).take 2
      let separator := (allBytes.drop 4).take 1
      let bitfieldBytes := allBytes.drop 5
      let dataForChecksum := lengthBytes ++ separator ++ bitfieldBytes
      let expectedChecksum := computeChecksum dataForChecksum key
      let actualChecksum := beNat checksumBytes
      if expectedChecksum ≠ actualChecksum then .error .integrity
      else
        let length := beNat lengthBytes
        let allBits := leftPadFalse (bitfieldBytes.length * 8)
          (natBits (beNat bitfieldBytes))
        let validBits := allBits.take length
        .ok (BDeque.ofList validBits maxlen)

theorem b64encode_ne_nil (bs : List Nat) (h : bs ≠ []) : b64encode bs ≠ [] := by
  match bs with
  | [] => exact absurd rfl h
  | [a] => simp [b64encode]
  | [a, b] => simp [b64encode]
  | a :: b :: c :: rest => simp [b64encode]

theorem beNat_cons (b : Nat) (l : List Nat) :
    beNat (b :: l) = l.foldl (fun acc x => acc * 256 + x) b := by
  simp [beNat]

theorem beNat_two (a b : Nat) : beNat [a, b] = a * 256 + b := by
  simp [beNat]

/-- Master round-trip lemma for the codec: decoding an encoding restores
the sequence, truncated to the last `maxlen` entries by the deque
constructor. -/
theorem base64ToBitfield_bitfieldToBase64 (seq : List Bool) (key cap : Nat)
    (hlen : seq.length < 65536) (hkey : key < 65536) :
    base64ToBitfield (bitfieldToBase64 seq key) key cap = .ok (BDeque.ofList seq cap) := by
  by_cases hnil : seq = []
  · subst hnil
    simp [bitfieldToBase64, base64ToBitfield, BDeque.ofList]
  · -- the encoded byte buffer
    set L := seq.length with hL
    have hLpos : 0 < L := List.length_pos.mpr hnil
    set padded : List Bool := seq ++ List.replicate ((L + 7) / 8 * 8 - L) false with hpadded
    have hpaddedlen : padded.length = (L + 7) / 8 * 8 := by
      simp only [hpadded, List.length_append, List.length_replicate, ← hL]
      omega
    set n : Nat := (padded.length + 7) / 8 with hn
    have hn8 : 8 * n = padded.length := by omega
    have hnpos : 0 < n := by omega
    set bfB : List Nat := natToBytesBE (bitsToNat padded) n with hbfB
    set lenB : List Nat := natToBytesBE L 2 with hlenB
    set dataB : List Nat := lenB ++ [0] ++ bfB with hdataB
    set csB : List Nat := natToBytesBE (computeChecksum dataB key) 2 with hcsB
    have hencode : bitfieldToBase64 seq key = b64encode (csB ++ dataB) := by
      rw [bitfieldToBase64, if_neg hnil]
    have hallbytes : ∀ b ∈ csB ++ dataB, b < 256 := by
      intro b hb
      simp only [hdataB, List.mem_append, List.mem_singleton] at hb
      rcases hb with h | (h | h) | h
      · exact mem_natToBytesBE_lt _ _ _ h
      · exact mem_natToBytesBE_lt _ _ _ h
      · omega
      · exact mem_natToBytesBE_lt _ _ _ h
    have hne : bitfieldToBase64 seq key ≠ [] := by
      rw [hencode]
      apply b64encode_ne_nil
      intro hX
      have h2 : csB.length = 2 := length_natToBytesBE _ _
      rw [List.append_eq_nil] at hX
      rw [hX.1] at h2
      simp at h2
    rw [base64ToBitfield, if_neg hne, hencode, b64decode_b64encode _ hallbytes]
    have hcslen : csB.length = 2 := length_natToBytesBE _ _
    have hlenlen : lenB.length = 2 := length_natToBytesBE _ _
    have hbflen : bfB.length = n := length_natToBytesBE _ _
    -- slice recovery
    have htake2 : (csB ++ dataB).take 2 = csB := by
      rw [List.take_append_of_le_length (by omega), List.take_of_length_le (by omega)]
    have hdrop2 : (csB ++ dataB).drop 2 = dataB := by
      rw [List.drop_append_of_le_length (by omega), List.drop_of_length_le (by omega)]
      simp
    have hlentake : dataB.take 2 = lenB := by
      rw [hdataB, List.append_assoc, List.take_append_of_le_length (by omega),
        List.take_of_length_le (by omega)]
    have hseptake : (dataB.drop 2).take 1 = [0] := by
      rw [hdataB, List.append_assoc, List.drop_append_of_le_length (by omega),
        List.drop_of_length_le (by omega)]
      simp
    have hbfdrop : dataB.drop 3 = bfB := by
      rw [hdataB,
        List.drop_append_of_le_length (by simp [hlenlen]),
        List.drop_of_length_le (by simp [hlenlen])]
      simp
    have hdrop4 : (csB ++ dataB).drop 4 = dataB.drop 2 := by
      rw [show (4 : Nat) = 2 + 2 by rfl, ← List.drop_drop, hdrop2]
    have hdrop5 : (csB ++ dataB).drop 5 = dataB.drop 3 := by
      rw [show (5 : Nat) = 2 + 3 by rfl, ← List.drop_drop, hdrop2]
    simp only [htake2, hdrop2, hdrop4, hdrop5, hlentake, hseptake, hbfdrop]
    have hdata_eq : lenB ++ [0] ++ bfB = dataB := by rw [hdataB]
    rw [hdata_eq]
    have hcsum : beNat csB = computeChecksum dataB key := by
      rw [hcsB]
      exact beNat_natToBytesBE 2 _ (by
        have := computeChecksum_lt dataB key hkey
        norm_num
        omega)
    rw [if_neg (by rw [hcsum]; simp)]
    have hlenval : beNat lenB = L := by
      rw [hlenB]
      exact beNat_natToBytesBE 2 _ (by norm_num; omega)
    have hbfval : beNat bfB = bitsToNat padded := by
      rw [hbfB]
      refine beNat_natToBytesBE n _ ?_
      have h1 : bitsToNat padded < 2 ^ padded.length := bitsToNat_lt padded
      calc bitsToNat padded < 2 ^ padded.length := h1
        _ ≤ 256 ^ n := by
          rw [show (256 : Nat) = 2 ^ 8 by norm_num, ← pow_mul, hn8]
    rw [hlenval, hbfval, hbflen]
    have hbits : leftPadFalse (n * 8) (natBits (bitsToNat padded)) = padded := by
      have := zfill_natBits_bitsToNat padded (by
        intro hp
        rw [hp] at hpaddedlen
        simp at hpaddedlen
        omega)
      rwa [show n * 8 = padded.length by omega]
    rw [hbits]
    have htakeL : padded.take L = seq := by
      rw [hpadded, hL, List.take_append_of_le_length (le_refl _), List.take_length]
    rw [htakeL]

/-! ## Settings (`config/settings.py`) -/

/-- A `LEVEL_REQUIREMENTS` entry: `{"accuracy": …, "streak": …, "window": …}`,
each value `Optional[int]` (level 5 holds `None` everywhere). -/
structure LevelReq where
  accuracy : Option Nat
  streak : Option Nat
  window : Option Nat
deriving DecidableEq

/-- `LEVEL_REQUIREMENTS` as a partial map; `none` is a `KeyError`. -/
def LEVEL_REQUIREMENTS : Nat → Option LevelReq
  | 1 => some ⟨some 75, some 15, some 45⟩
  | 2 => some ⟨some 80, some 20, some 90⟩
  | 3 => some ⟨some 85, some 30, some 90⟩
  | 4 => some ⟨some 87, some 35, some 90⟩
  | 5 => some ⟨none, none, none⟩
  | _ => none

/-- `max(LEVEL_REQUIREMENTS.keys())`. -/
def maxLevelKey : Nat := 5

/-- The `window_sizes` dictionary `MenuSystem.__init__` builds:
levels whose `window` entry is not `None`, mapped to it. -/
def windowSizes : Nat → Option Nat := fun l => (LEVEL_REQUIREMENTS l).bind (·.window)

/-- The window capacity the specification assigns to a difficulty:
`requirement[min(difficulty, MAX_LEVEL - 1)].window_capacity`. -/
def effectiveWindowCap (d : Nat) : Option Nat :=
  (LEVEL_REQUIREMENTS (min d (maxLevelKey - 1))).bind (·.window)

/-! ## Game state (`core/game_state.py`) -/

/-- `GameState`: difficulty, the bounded accuracy window, and the streak
window (a plain Python list, unbounded). -/
structure GameState where
  current_difficulty : Nat
  accuracy_window : BDeque
  streak_window : List Bool
deriving DecidableEq

/-- `GameState.__init__`: difficulty 1, `deque(maxlen=30)`, empty streak. -/
def GameState.initial : GameState := ⟨1, ⟨[], 30⟩, []⟩

/-- `GameState.FORMAT_VERSION`. -/
def FORMAT_VERSION : Nat := 1

/-- The dictionary produced by `GameState.to_dict` (the timestamp field is
informational only and never read back, so it is not modelled). A missing
`version` key reads as the default 1 (`data.get("version", 1)`). -/
structure SaveRecord where
  version : Option Nat
  difficulty : Nat
  accuracy_window : List Char
  streak_window : List Char
deriving DecidableEq

/-- Errors of `GameState.from_dict`: the version `ValueError`, a `KeyError`
from the `window_sizes` lookup, or a codec error. -/
inductive LoadErr where
  | versionMismatch : LoadErr
  | keyError : LoadErr
  | decode (e : DecErr) : LoadErr
deriving DecidableEq

/-- `GameState.to_dict`. -/
def GameState.toDict (s : GameState) : SaveRecord :=
  ⟨some FORMAT_VERSION, s.current_difficulty,
    bitfieldToBase64 s.accuracy_window.data SAVE_KEY_ACCURACY,
    bitfieldToBase64 s.streak_window SAVE_KEY_STREAK⟩

/-- `GameState.from_dict`: version gate, effective window-size selection
(max level reuses the previous level's size), then both windows are
decoded with integrity checks; the streak deque is converted back to a
list. -/
def GameState.fromDict (data : SaveRecord) (window_sizes : Nat → Option Nat) :
    Except LoadErr GameState :=
  if data.version.getD 1 ≠ FORMAT_VERSION then .error .versionMismatch
  else
    match (if data.difficulty = maxLevelKey
           then window_sizes (data.difficulty - 1)
           else window_sizes data.difficulty) with
    | none => .error .keyError
    | some windowSize =>
      match base64ToBitfield data.accuracy_window SAVE_KEY_ACCURACY windowSize with
      | .error e => .error (.decode e)
      | .ok accW =>
        match base64ToBitfield data.streak_window SAVE_KEY_STREAK windowSize with
        | .error e => .error (.decode e)
        | .ok streakW => .ok ⟨data.difficulty, accW, streakW.data⟩

/-! ## Progression engine (`ui/menu.py`)

`check_level_progress`, `check_difficulty_regression` and
`_process_answer` mutate the shared `GameState`; they are embedded as
state-passing functions returning the updated state together with the
boolean the Python method returns. Dictionary accesses that could raise
`KeyError` (and arithmetic on a `None` threshold, a `TypeError` in
Python) are modelled with `Option` binds; on the difficulty range 1..5
that the program maintains every lookup succeeds. -/

/-- `MenuSystem.check_level_progress`. -/
def checkLevelProgress (s : GameState) (isCorrect : Bool) :
    Option (GameState × Bool) :=
  if s.current_difficulty = maxLevelKey then some (s, false)
  else do
    let acc1 := s.accuracy_window.append isCorrect
    let reqs ← LEVEL_REQUIREMENTS s.current_difficulty
    if acc1.data = [] then some ({ s with accuracy_window := acc1 }, false)
    else do
      let correct := acc1.data.count true
      let accTh ← reqs.accuracy
      -- current_accuracy ≥ accTh, embedded as the exact integer comparison
      let newStreak :=
        if accTh * acc1.data.length ≤ 100 * correct then
          (if isCorrect then s.streak_window ++ [true] else s.streak_window)
        else []
      let streakTh ← reqs.streak
      if streakTh ≤ newStreak.length ∧ accTh * acc1.data.length ≤ 100 * correct then
        let d1 := s.current_difficulty + 1
        if d1 < maxLevelKey then do
          let reqs1 ← LEVEL_REQUIREMENTS d1
          let newSize ← reqs1.window
          some (⟨d1, ⟨[], newSize⟩, []⟩, true)
        else
          some (⟨d1, ⟨[], acc1.maxlen⟩, []⟩, true)
      else
        some ({ s with accuracy_window := acc1, streak_window := newStreak }, false)

/-- `MenuSystem.check_difficulty_regression`. -/
def checkDifficultyRegression (s : GameState) : Option (GameState × Bool) :=
  if s.current_difficulty ≤ 1 then some (s, false)
  else if s.accuracy_window.data = [] then some (s, false)
  else
    let minSamples := max 5 (s.accuracy_window.maxlen / 3)
    if s.accuracy_window.data.length < minSamples then some (s, false)
    else do
      let correct := s.accuracy_window.data.count true
      let reqs ← LEVEL_REQUIREMENTS (s.current_difficulty - 1)
      let accTh ← reqs.accuracy
      -- recent_accuracy < accTh - 10, embedded as the exact integer comparison
      if 100 * correct < (accTh - 10) * s.accuracy_window.data.length then do
        let newSize ← reqs.window
        some (⟨s.current_difficulty - 1, ⟨[], newSize⟩, []⟩, true)
      else
        some (s, false)

/-- `MenuSystem._process_answer` (the state mutation only; printing and
session statistics have no effect on `GameState`): the level-up check
runs on every answer, the regression check only on incorrect ones. -/
def processAnswer (s : GameState) (isCorrect : Bool) : Option GameState :=
  if isCorrect then do
    let r ← checkLevelProgress s true
    some r.1
  else do
    let r ← checkLevelProgress s false
    let r2 ← checkDifficultyRegression r.1
    some r2.1

/-- Fold a list of answer outcomes through `_process_answer`. -/
def runAnswers : List Bool → GameState → Option GameState
  | [], s => some s
  | b :: rest, s => (processAnswer s b).bind (runAnswers rest)

/-! ## Persistence (`core/state_manager.py`)

`save_state` performs two observable file-system steps, in order:
(1) if the primary save exists, `Path.replace` it onto the backup slot;
(2) write the new primary. The two-file state and both micro-steps are
modelled explicitly so ordering properties can be stated. -/

/-- Content of a save file: a parsable record, or bytes that fail JSON
parsing / integrity validation. -/
inductive FileContent where
  | valid (r : SaveRecord) : FileContent
  | corrupt : FileContent
deriving DecidableEq

/-- The two durable files. -/
structure SaveFiles where
  primary : Option FileContent
  backup : Option FileContent
deriving DecidableEq

/-- Step (1) of `StateManager.save_state`:
`if self.state_file.exists(): self.state_file.replace(self.backup_file)`. -/
def saveRotate (fs : SaveFiles) : SaveFiles :=
  match fs.primary with
  | some c => ⟨none, some c⟩
  | none => fs

/-- Step (2) of `StateManager.save_state`: write the new primary. -/
def saveWrite (fs : SaveFiles) (s : GameState) : SaveFiles :=
  { fs with primary := some (.valid s.toDict) }

/-- `StateManager.save_state`: rotate, then write. -/
def saveState (fs : SaveFiles) (s : GameState) : SaveFiles :=
  saveWrite (saveRotate fs) s

/-- `StateManager._try_load_file` on one file's content: `None` on failure
(JSON/parse/version/integrity errors all collapse to a caught exception). -/
def tryLoadContent (c : FileContent) (window_sizes : Nat → Option Nat) :
    Option GameState :=
  match c with
  | .corrupt => none
  | .valid r =>
    match GameState.fromDict r window_sizes with
    | .ok st => some st
    | .error _ => none

/-- The primary save exists but fails to load (the situation after which
the specification demands the backup be preserved). -/
def primaryLoadFailed (fs : SaveFiles) (window_sizes : Nat → Option Nat) : Prop :=
  ∃ c, fs.primary = some c ∧ tryLoadContent c window_sizes = none

/-! ## Concrete requirement values and engine shape lemmas -/

/-- Accuracy threshold of levels 1..4 (proof-side shorthand). -/
def accThOf : Nat → Nat
  | 1 => 75
  | 2 => 80
  | 3 => 85
  | 4 => 87
  | _ => 0

/-- Streak threshold of levels 1..4 (proof-side shorthand). -/
def streakThOf : Nat → Nat
  | 1 => 15
  | 2 => 20
  | 3 => 30
  | 4 => 35
  | _ => 0

/-- Window capacity of levels 1..4 (proof-side shorthand). -/
def windowOf : Nat → Nat
  | 1 => 45
  | 2 => 90
  | 3 => 90
  | 4 => 90
  | _ => 0

theorem levelReq_eq (d : Nat) (h1 : 1 ≤ d) (h4 : d < 5) :
    LEVEL_REQUIREMENTS d
      = some ⟨some (accThOf d), some (streakThOf d), some (windowOf d)⟩ := by
  interval_cases d <;> rfl

theorem streakThOf_pos (d : Nat) (h1 : 1 ≤ d) (h4 : d < 5) : 0 < streakThOf d := by
  interval_cases d <;> decide

theorem checkLevelProgress_maxLevel (s : GameState) (b : Bool)
    (h : s.current_difficulty = 5) : checkLevelProgress s b = some (s, false) := by
  simp [checkLevelProgress, maxLevelKey, h]

/-- Resolved form of `check_level_progress` below max level. -/
theorem checkLevelProgress_eq (d : Nat) (acc : BDeque) (streak : List Bool) (b : Bool)
    (h1 : 1 ≤ d) (h4 : d < 5) :
    checkLevelProgress ⟨d, acc, streak⟩ b =
      (if (acc.append b).data = [] then some (⟨d, acc.append b, streak⟩, false)
       else
        if streakThOf d ≤ (if accThOf d * (acc.append b).data.length
              ≤ 100 * (acc.append b).data.count true then
              (if b then streak ++ [true] else streak) else []).length
            ∧ accThOf d * (acc.append b).data.length
              ≤ 100 * (acc.append b).data.count true then
          if d + 1 < 5 then some (⟨d + 1, ⟨[], windowOf (d + 1)⟩, []⟩, true)
          else some (⟨d + 1, ⟨[], (acc.append b).maxlen⟩, []⟩, true)
        else
          some (⟨d, acc.append b,
            if accThOf d * (acc.append b).data.length
              ≤ 100 * (acc.append b).data.count true then
              (if b then streak ++ [true] else streak) else []⟩, false)) := by
  interval_cases d <;>
    simp [checkLevelProgress, maxLevelKey, LEVEL_REQUIREMENTS, accThOf, streakThOf,
      windowOf, Option.bind]

theorem checkDifficultyRegression_low (s : GameState)
    (h : s.current_difficulty ≤ 1) : checkDifficultyRegression s = some (s, false) := by
  simp [checkDifficultyRegression, h]

/-- Resolved form of `check_difficulty_regression` above level 1. -/
theorem checkDifficultyRegression_eq (d : Nat) (acc : BDeque) (streak : List Bool)
    (h2 : 2 ≤ d) (h5 : d ≤ 5) :
    checkDifficultyRegression ⟨d, acc, streak⟩ =
      (if acc.data = [] then some (⟨d, acc, streak⟩, false)
       else if acc.data.length < max 5 (acc.maxlen / 3) then some (⟨d, acc, streak⟩, false)
       else if 100 * acc.data.count true < (accThOf (d - 1) - 10) * acc.data.length then
         some (⟨d - 1, ⟨[], windowOf (d - 1)⟩, []⟩, true)
       else some (⟨d, acc, streak⟩, false)) := by
  interval_cases d <;>
    simp [checkDifficultyRegression, LEVEL_REQUIREMENTS, accThOf, windowOf, Option.bind]

/-! ## Serialization lemmas -/

theorem base64ToBitfield_ok_shape (s : List Char) (key m : Nat) (d : BDeque)
    (h : base64ToBitfield s key m = .ok d) :
    d = ⟨[], m⟩ ∨ ∃ l, d = BDeque.ofList l m := by
  rw [base64ToBitfield] at h
  split at h
  · left
    exact (Except.ok.inj h).symm
  · split at h
    · cases h
    · dsimp only at h
      split at h
      · cases h
      · right
        exact ⟨_, (Except.ok.inj h).symm⟩

theorem base64ToBitfield_ok_maxlen (s : List Char) (key m : Nat) (d : BDeque)
    (h : base64ToBitfield s key m = .ok d) : d.maxlen = m := by
  rcases base64ToBitfield_ok_shape s key m d h with h1 | ⟨l, h1⟩ <;> rw [h1] <;> rfl

theorem base64ToBitfield_ok_length (s : List Char) (key m : Nat) (d : BDeque)
    (h : base64ToBitfield s key m = .ok d) : d.data.length ≤ m := by
  rcases base64ToBitfield_ok_shape s key m d h with h1 | ⟨l, h1⟩
  · rw [h1]
    simp
  · rw [h1]
    exact BDeque.ofList_length_le _ _

theorem windowSizes_some (d w : Nat) (h : windowSizes d = some w) :
    1 ≤ d ∧ d ≤ 4 ∧ effectiveWindowCap d = some w := by
  match d with
  | 0 => simp [windowSizes, LEVEL_REQUIREMENTS] at h
  | 1 => refine ⟨by omega, by omega, ?_⟩; rw [← h]; rfl
  | 2 => refine ⟨by omega, by omega, ?_⟩; rw [← h]; rfl
  | 3 => refine ⟨by omega, by omega, ?_⟩; rw [← h]; rfl
  | 4 => refine ⟨by omega, by omega, ?_⟩; rw [← h]; rfl
  | 5 => simp [windowSizes, LEVEL_REQUIREMENTS] at h
  | n + 6 => simp [windowSizes, LEVEL_REQUIREMENTS] at h

/-- The window size `from_dict` picks for difficulty `d` in range. -/
def wsOf : Nat → Nat
  | 1 => 45
  | 2 => 90
  | 3 => 90
  | 4 => 90
  | 5 => 90
  | _ => 0

theorem fromDict_window (d : Nat) (h1 : 1 ≤ d) (h5 : d ≤ 5) :
    (if d = maxLevelKey then windowSizes (d - 1) else windowSizes d) = some (wsOf d) := by
  interval_cases d <;> rfl

/-- Round trip of a whole state through `to_dict` / `from_dict`: the
accuracy window and the streak list are decoded back with the
level-appropriate capacity and truncated to it. -/
theorem fromDict_toDict (s : GameState)
    (hacc : s.accuracy_window.data.length < 65536)
    (hstreak : s.streak_window.length < 65536)
    (hd1 : 1 ≤ s.current_difficulty) (hd5 : s.current_difficulty ≤ 5) :
    GameState.fromDict s.toDict windowSizes
      = .ok ⟨s.current_difficulty,
             BDeque.ofList s.accuracy_window.data (wsOf s.current_difficulty),
             (BDeque.ofList s.streak_window (wsOf s.current_difficulty)).data⟩ := by
  rw [GameState.fromDict]
  simp only [GameState.toDict]
  rw [if_neg (by simp [FORMAT_VERSION])]
  rw [fromDict_window _ hd1 hd5]
  dsimp only
  rw [base64ToBitfield_bitfieldToBase64 _ _ _ hacc (by norm_num [SAVE_KEY_ACCURACY])]
  dsimp only
  rw [base64ToBitfield_bitfieldToBase64 _ _ _ hstreak (by norm_num [SAVE_KEY_STREAK])]

/-! ## Reachable states and the master invariant -/

/-- States reachable in a session: the fresh state, per-question engine
steps, and a save/load round trip through the serialized record. -/
inductive Reachable : GameState → Prop where
  | init : Reachable GameState.initial
  | step {s s1 : GameState} {b : Bool} :
      Reachable s → processAnswer s b = some s1 → Reachable s1
  | saveLoad {s s1 : GameState} :
      Reachable s → GameState.fromDict s.toDict windowSizes = .ok s1 → Reachable s1

/-- Inductive invariant of reachable states: difficulty stays in 1..5,
the accuracy window respects its capacity (which never exceeds 90), the
terminal level has permanently empty windows, and below max level the
streak window is strictly below the streak threshold. -/
def StateInv (s : GameState) : Prop :=
  1 ≤ s.current_difficulty ∧ s.current_difficulty ≤ 5 ∧
  s.accuracy_window.data.length ≤ s.accuracy_window.maxlen ∧
  s.accuracy_window.maxlen ≤ 90 ∧
  (s.current_difficulty = 5 → s.accuracy_window.data = [] ∧ s.streak_window = []) ∧
  (s.current_difficulty < 5 → s.streak_window.length < streakThOf s.current_difficulty)

theorem stateInv_initial : StateInv GameState.initial := by
  refine ⟨by decide, by decide, by decide, by decide, by decide, ?_⟩
  intro _
  decide

theorem checkLevelProgress_inv (s : GameState) (b : Bool) (p : GameState × Bool)
    (hinv : StateInv s) (h : checkLevelProgress s b = some p) : StateInv p.1 := by
  obtain ⟨hd1, hd5, hlen, hcap, h5, hstreak⟩ := hinv
  by_cases hd : s.current_difficulty = 5
  · rw [checkLevelProgress_maxLevel s b hd] at h
    cases h
    exact ⟨hd1, hd5, hlen, hcap, h5, hstreak⟩
  · obtain ⟨d, acc, streak⟩ := s
    simp only at hd1 hd5 hlen hcap h5 hstreak hd
    rw [checkLevelProgress_eq d acc streak b hd1 (by omega)] at h
    have happlen : (acc.append b).data.length ≤ acc.maxlen :=
      BDeque.append_length_le acc b hlen
    by_cases hempty : (acc.append b).data = []
    · rw [if_pos hempty] at h
      obtain rfl := Option.some.inj h
      exact ⟨hd1, hd5, happlen, hcap, fun hh => absurd hh hd,
        fun _ => hstreak (by omega)⟩
    · rw [if_neg hempty] at h
      by_cases hcond : streakThOf d ≤ (if accThOf d * (acc.append b).data.length
            ≤ 100 * (acc.append b).data.count true then
            (if b then streak ++ [true] else streak) else []).length
          ∧ accThOf d * (acc.append b).data.length
            ≤ 100 * (acc.append b).data.count true
      · rw [if_pos hcond] at h
        by_cases hd15 : d + 1 < 5
        · rw [if_pos hd15] at h
          obtain rfl := Option.some.inj h
          refine ⟨show 1 ≤ d + 1 by omega, show d + 1 ≤ 5 by omega,
            show ([] : List Bool).length ≤ windowOf (d + 1) by simp, ?_,
            fun hh => absurd (show d + 1 = 5 from hh) (by omega), ?_⟩
          · show windowOf (d + 1) ≤ 90
            interval_cases d <;> simp [windowOf]
          · intro _
            show ([] : List Bool).length < streakThOf (d + 1)
            simp only [List.length_nil]
            exact streakThOf_pos _ (by omega) (by omega)
        · rw [if_neg hd15] at h
          obtain rfl := Option.some.inj h
          exact ⟨show 1 ≤ d + 1 by omega, show d + 1 ≤ 5 by omega,
            show ([] : List Bool).length ≤ (acc.append b).maxlen by simp,
            show (acc.append b).maxlen ≤ 90 from hcap,
            fun _ => ⟨rfl, rfl⟩,
            fun hlt5 => absurd (show d + 1 < 5 from hlt5) (by omega)⟩
      · rw [if_neg hcond] at h
        obtain rfl := Option.some.inj h
        refine ⟨hd1, hd5, happlen, hcap, fun hh => absurd hh hd, ?_⟩
        intro _
        show (if accThOf d * (acc.append b).data.length
            ≤ 100 * (acc.append b).data.count true then
            (if b then streak ++ [true] else streak) else []).length < streakThOf d
        by_cases hacond : accThOf d * (acc.append b).data.length
            ≤ 100 * (acc.append b).data.count true
        · rw [if_pos hacond]
          cases b
          · show streak.length < streakThOf d
            exact hstreak (by omega)
          · rw [if_pos hacond] at hcond
            show (streak ++ [true]).length < streakThOf d
            by_cases hle : streakThOf d ≤ (streak ++ [true]).length
            · exact (hcond ⟨hle, hacond⟩).elim
            · omega
        · rw [if_neg hacond]
          simp only [List.length_nil]
          exact streakThOf_pos _ (by omega) (by omega)

theorem checkDifficultyRegression_inv (s : GameState) (p : GameState × Bool)
    (hinv : StateInv s) (h : checkDifficultyRegression s = some p) : StateInv p.1 := by
  obtain ⟨hd1, hd5, hlen, hcap, h5, hstreak⟩ := hinv
  by_cases hd : s.current_difficulty ≤ 1
  · rw [checkDifficultyRegression_low s hd] at h
    cases h
    exact ⟨hd1, hd5, hlen, hcap, h5, hstreak⟩
  · obtain ⟨d, acc, streak⟩ := s
    simp only at hd1 hd5 hlen hcap h5 hstreak hd
    rw [checkDifficultyRegression_eq d acc streak (by omega) hd5] at h
    split at h
    · obtain rfl := Option.some.inj h
      exact ⟨hd1, hd5, hlen, hcap, h5, hstreak⟩
    · split at h
      · obtain rfl := Option.some.inj h
        exact ⟨hd1, hd5, hlen, hcap, h5, hstreak⟩
      · split at h
        · obtain rfl := Option.some.inj h
          refine ⟨show 1 ≤ d - 1 by omega, show d - 1 ≤ 5 by omega,
            show ([] : List Bool).length ≤ windowOf (d - 1) by simp, ?_,
            fun hh => absurd (show d - 1 = 5 from hh) (by omega), ?_⟩
          · show windowOf (d - 1) ≤ 90
            interval_cases d <;> simp [windowOf]
          · intro _
            show ([] : List Bool).length < streakThOf (d - 1)
            simp only [List.length_nil]
            exact streakThOf_pos _ (by omega) (by omega)
        · obtain rfl := Option.some.inj h
          exact ⟨hd1, hd5, hlen, hcap, h5, hstreak⟩

theorem processAnswer_inv (s : GameState) (b : Bool) (s1 : GameState)
    (hinv : StateInv s) (h : processAnswer s b = some s1) : StateInv s1 := by
  cases b
  · rw [processAnswer] at h
    simp only [Bool.false_eq_true, if_neg] at h
    cases hclp : checkLevelProgress s false with
    | none => rw [hclp] at h; cases h
    | some p =>
      rw [hclp] at h
      replace h : (checkDifficultyRegression p.1).bind (fun r2 => some r2.1)
          = some s1 := h
      cases hreg : checkDifficultyRegression p.1 with
      | none => rw [hreg] at h; cases h
      | some p2 =>
        rw [hreg] at h
        replace h : some p2.1 = some s1 := h
        obtain rfl := Option.some.inj h
        exact checkDifficultyRegression_inv _ _
          (checkLevelProgress_inv _ _ _ hinv hclp) hreg
  · rw [processAnswer] at h
    simp only [if_pos] at h
    cases hclp : checkLevelProgress s true with
    | none => rw [hclp] at h; cases h
    | some p =>
      rw [hclp] at h
      replace h : some p.1 = some s1 := h
      obtain rfl := Option.some.inj h
      exact checkLevelProgress_inv _ _ _ hinv hclp

theorem saveLoad_inv (s s1 : GameState) (hinv : StateInv s)
    (h : GameState.fromDict s.toDict windowSizes = .ok s1) : StateInv s1 := by
  obtain ⟨hd1, hd5, hlen, hcap, h5, hstreak⟩ := hinv
  have hsl : s.streak_window.length < 65536 := by
    by_cases hd : s.current_difficulty = 5
    · rw [(h5 hd).2]
      simp
    · have := hstreak (by omega)
      have : streakThOf s.current_difficulty ≤ 36 := by
        rcases Nat.lt_or_ge s.current_difficulty 5 with h | h
        · interval_cases hh : s.current_difficulty <;> simp [streakThOf]
        · omega
      omega
  rw [fromDict_toDict s (by omega) hsl hd1 hd5] at h
  cases h
  have hws : wsOf s.current_difficulty ≤ 90 := by
    interval_cases hh : s.current_difficulty <;> simp [wsOf]
  refine ⟨hd1, hd5, BDeque.ofList_length_le _ _, hws, ?_, ?_⟩
  · intro hd
    obtain ⟨ha, hs⟩ := h5 hd
    constructor
    · show (BDeque.ofList s.accuracy_window.data (wsOf s.current_difficulty)).data = []
      rw [ha]
      simp [BDeque.ofList]
    · show (BDeque.ofList s.streak_window (wsOf s.current_difficulty)).data = []
      rw [hs]
      simp [BDeque.ofList]
  · intro hd
    have h1 := hstreak hd
    calc (BDeque.ofList s.streak_window (wsOf s.current_difficulty)).data.length
        ≤ s.streak_window.length := by simp [BDeque.ofList]
      _ < streakThOf s.current_difficulty := h1

theorem reachable_inv (s : GameState) (h : Reachable s) : StateInv s := by
  induction h with
  | init => exact stateInv_initial
  | step hr hstep ih => exact processAnswer_inv _ _ _ ih hstep
  | saveLoad hr hload ih => exact saveLoad_inv _ _ ih hload

theorem runAnswers_reachable (l : List Bool) :
    ∀ s s1, Reachable s → runAnswers l s = some s1 → Reachable s1 := by
  induction l with
  | nil =>
    intro s s1 hr h
    cases h
    exact hr
  | cons b rest ih =>
    intro s s1 hr h
    rw [runAnswers] at h
    cases hp : processAnswer s b with
    | none => rw [hp] at h; cases h
    | some s2 =>
      rw [hp] at h
      replace h : runAnswers rest s2 = some s1 := h
      exact ih s2 s1 (Reachable.step hr hp) h

/-! ## Inversion of `from_dict` and capacity preservation -/

theorem fromDict_window_effective (d w : Nat)
    (hw : (if d = maxLevelKey then windowSizes (d - 1) else windowSizes d) = some w) :
    effectiveWindowCap d = some w := by
  by_cases h5 : d = maxLevelKey
  · rw [if_pos h5] at hw
    subst h5
    have h90 : (90 : Nat) = w := Option.some.inj hw
    rw [← h90]
    rfl
  · rw [if_neg h5] at hw
    exact (windowSizes_some _ _ hw).2.2

/-- Successful `from_dict` decomposed: the effective window size is
resolved, both windows decode with it, and the state is assembled from
the record's difficulty and the decoded windows. -/
theorem fromDict_ok_spec (rec : SaveRecord) (st : GameState)
    (h : GameState.fromDict rec windowSizes = .ok st) :
    ∃ w accW streakW,
      effectiveWindowCap rec.difficulty = some w ∧
      base64ToBitfield rec.accuracy_window SAVE_KEY_ACCURACY w = .ok accW ∧
      base64ToBitfield rec.streak_window SAVE_KEY_STREAK w = .ok streakW ∧
      st = ⟨rec.difficulty, accW, streakW.data⟩ := by
  rw [GameState.fromDict] at h
  split at h
  · cases h
  · cases hw : (if rec.difficulty = maxLevelKey then windowSizes (rec.difficulty - 1)
        else windowSizes rec.difficulty) with
    | none => rw [hw] at h; cases h
    | some w =>
      rw [hw] at h
      dsimp only at h
      cases hacc : base64ToBitfield rec.accuracy_window SAVE_KEY_ACCURACY w with
      | error e => rw [hacc] at h; cases h
      | ok accW =>
        rw [hacc] at h
        dsimp only at h
        cases hstr : base64ToBitfield rec.streak_window SAVE_KEY_STREAK w with
        | error e => rw [hstr] at h; cases h
        | ok streakW =>
          rw [hstr] at h
          dsimp only at h
          exact ⟨w, accW, streakW, fromDict_window_effective _ _ hw, hacc, hstr,
            (Except.ok.inj h).symm⟩

/-- Once the version gate passes, `from_dict` can never fail with the
version error: all later failures are key or codec errors. -/
theorem fromDict_versionOk_no_mismatch (rec : SaveRecord) (ws : Nat → Option Nat)
    (hv1 : rec.version.getD 1 = FORMAT_VERSION) :
    GameState.fromDict rec ws ≠ .error .versionMismatch := by
  rw [GameState.fromDict, if_neg (by rw [hv1]; simp)]
  cases hw : (if rec.difficulty = maxLevelKey then ws (rec.difficulty - 1)
      else ws rec.difficulty) with
  | none => simp
  | some w =>
    dsimp only
    cases hacc : base64ToBitfield rec.accuracy_window SAVE_KEY_ACCURACY w with
    | error e => simp
    | ok accW =>
      dsimp only
      cases hstr : base64ToBitfield rec.streak_window SAVE_KEY_STREAK w with
      | error e => simp
      | ok streakW => simp

theorem checkLevelProgress_cap (s : GameState) (b : Bool) (p : GameState × Bool)
    (hcap : effectiveWindowCap s.current_difficulty = some s.accuracy_window.maxlen)
    (hd1 : 1 ≤ s.current_difficulty) (hd5 : s.current_difficulty ≤ 5)
    (h : checkLevelProgress s b = some p) :
    effectiveWindowCap p.1.current_difficulty = some p.1.accuracy_window.maxlen
      ∧ 1 ≤ p.1.current_difficulty ∧ p.1.current_difficulty ≤ 5 := by
  by_cases hd : s.current_difficulty = 5
  · rw [checkLevelProgress_maxLevel s b hd] at h
    obtain rfl := Option.some.inj h
    exact ⟨hcap, hd1, hd5⟩
  · obtain ⟨d, acc, streak⟩ := s
    simp only at hcap hd1 hd5 hd
    rw [checkLevelProgress_eq d acc streak b hd1 (by omega)] at h
    by_cases hempty : (acc.append b).data = []
    · rw [if_pos hempty] at h
      obtain rfl := Option.some.inj h
      exact ⟨hcap, hd1, hd5⟩
    · rw [if_neg hempty] at h
      by_cases hcond : streakThOf d ≤ (if accThOf d * (acc.append b).data.length
            ≤ 100 * (acc.append b).data.count true then
            (if b then streak ++ [true] else streak) else []).length
          ∧ accThOf d * (acc.append b).data.length
            ≤ 100 * (acc.append b).data.count true
      · rw [if_pos hcond] at h
        by_cases hd15 : d + 1 < 5
        · rw [if_pos hd15] at h
          obtain rfl := Option.some.inj h
          refine ⟨?_, show 1 ≤ d + 1 by omega, show d + 1 ≤ 5 by omega⟩
          show effectiveWindowCap (d + 1) = some (windowOf (d + 1))
          interval_cases d <;> first | rfl | omega
        · rw [if_neg hd15] at h
          obtain rfl := Option.some.inj h
          have hd4 : d = 4 := by omega
          subst hd4
          refine ⟨?_, show 1 ≤ 4 + 1 by omega, show 4 + 1 ≤ 5 by omega⟩
          show effectiveWindowCap (4 + 1) = some (acc.append b).maxlen
          have h90 : (90 : Nat) = acc.maxlen := Option.some.inj hcap
          show (some 90 : Option Nat) = some (acc.append b).maxlen
          rw [show (acc.append b).maxlen = acc.maxlen from rfl, ← h90]
      · rw [if_neg hcond] at h
        obtain rfl := Option.some.inj h
        exact ⟨hcap, hd1, hd5⟩

theorem checkDifficultyRegression_cap (s : GameState) (p : GameState × Bool)
    (hcap : effectiveWindowCap s.current_difficulty = some s.accuracy_window.maxlen)
    (hd1 : 1 ≤ s.current_difficulty) (hd5 : s.current_difficulty ≤ 5)
    (h : checkDifficultyRegression s = some p) :
    effectiveWindowCap p.1.current_difficulty = some p.1.accuracy_window.maxlen
      ∧ 1 ≤ p.1.current_difficulty ∧ p.1.current_difficulty ≤ 5 := by
  by_cases hdl : s.current_difficulty ≤ 1
  · rw [checkDifficultyRegression_low s hdl] at h
    obtain rfl := Option.some.inj h
    exact ⟨hcap, hd1, hd5⟩
  · obtain ⟨d, acc, streak⟩ := s
    simp only at hcap hd1 hd5 hdl
    rw [checkDifficultyRegression_eq d acc streak (by omega) hd5] at h
    by_cases hempty : acc.data = []
    · rw [if_pos hempty] at h
      obtain rfl := Option.some.inj h
      exact ⟨hcap, hd1, hd5⟩
    · rw [if_neg hempty] at h
      by_cases hsmall : acc.data.length < max 5 (acc.maxlen / 3)
      · rw [if_pos hsmall] at h
        obtain rfl := Option.some.inj h
        exact ⟨hcap, hd1, hd5⟩
      · rw [if_neg hsmall] at h
        by_cases hlow : 100 * acc.data.count true < (accThOf (d - 1) - 10) * acc.data.length
        · rw [if_pos hlow] at h
          obtain rfl := Option.some.inj h
          refine ⟨?_, show 1 ≤ d - 1 by omega, show d - 1 ≤ 5 by omega⟩
          show effectiveWindowCap (d - 1) = some (windowOf (d - 1))
          interval_cases d <;> first | rfl | omega
        · rw [if_neg hlow] at h
          obtain rfl := Option.some.inj h
          exact ⟨hcap, hd1, hd5⟩

theorem processAnswer_cap (s : GameState) (b : Bool) (s1 : GameState)
    (hcap : effectiveWindowCap s.current_difficulty = some s.accuracy_window.maxlen)
    (hd1 : 1 ≤ s.current_difficulty) (hd5 : s.current_difficulty ≤ 5)
    (h : processAnswer s b = some s1) :
    effectiveWindowCap s1.current_difficulty = some s1.accuracy_window.maxlen := by
  cases b
  · replace h : (checkLevelProgress s false).bind
        (fun r => (checkDifficultyRegression r.1).bind fun r2 => some r2.1) = some s1 := h
    cases hclp : checkLevelProgress s false with
    | none => rw [hclp] at h; cases h
    | some p =>
      rw [hclp] at h
      replace h : (checkDifficultyRegression p.1).bind (fun r2 => some r2.1)
          = some s1 := h
      cases hreg : checkDifficultyRegression p.1 with
      | none => rw [hreg] at h; cases h
      | some p2 =>
        rw [hreg] at h
        replace h : some p2.1 = some s1 := h
        obtain rfl := Option.some.inj h
        obtain ⟨hc1, hb1, hb2⟩ := checkLevelProgress_cap s false p hcap hd1 hd5 hclp
        exact (checkDifficultyRegression_cap p.1 p2 hc1 hb1 hb2 hreg).1
  · replace h : (checkLevelProgress s true).bind (fun r => some r.1) = some s1 := h
    cases hclp : checkLevelProgress s true with
    | none => rw [hclp] at h; cases h
    | some p =>
      rw [hclp] at h
      replace h : some p.1 = some s1 := h
      obtain rfl := Option.some.inj h
      exact (checkLevelProgress_cap s true p hcap hd1 hd5 hclp).1

/-! ## Claim theorems -/

/-- C1 codec round trip: for every boolean sequence of length at most 500
and both type keys (accuracy `0x55AA`, streak `0xAA55`), decoding the
encoding with the same key yields exactly the sequence when the capacity
is at least its length, and the last `capacity` elements (oldest dropped
first) when the capacity is smaller. -/
theorem codec_roundtrip_c1 (seq : List Bool) (key cap : Nat)
    (hlen : seq.length ≤ 500)
    (hkey : key = SAVE_KEY_ACCURACY ∨ key = SAVE_KEY_STREAK) :
    (seq.length ≤ cap →
      base64ToBitfield (bitfieldToBase64 seq key) key cap = .ok ⟨seq, cap⟩) ∧
    (cap < seq.length →
      base64ToBitfield (bitfieldToBase64 seq key) key cap
        = .ok ⟨seq.drop (seq.length - cap), cap⟩) := by
  have hk : key < 65536 := by
    rcases hkey with rfl | rfl <;> norm_num [SAVE_KEY_ACCURACY, SAVE_KEY_STREAK]
  constructor
  · intro hc
    rw [base64ToBitfield_bitfieldToBase64 seq key cap (by omega) hk,
      BDeque.ofList_of_le seq cap hc]
  · intro _
    rw [base64ToBitfield_bitfieldToBase64 seq key cap (by omega) hk]
    rfl

theorem codec_roundtrip_c1_witness :
    base64ToBitfield (bitfieldToBase64 [true, false, true] SAVE_KEY_ACCURACY)
        SAVE_KEY_ACCURACY 2 = .ok ⟨[false, true], 2⟩ :=
  (codec_roundtrip_c1 [true, false, true] SAVE_KEY_ACCURACY 2
    (by decide) (Or.inl rfl)).2 (by decide)

/-- C2 counterexample: a freshly created `GameState` has an accuracy
window of capacity 30 (`deque(maxlen=30)` in `__init__`), not the 45 that
`requirement[effective_level].window_capacity` assigns to difficulty 1,
so the capacity invariant fails on fresh states. -/
theorem capacity_invariant_c2_counterexample :
    GameState.initial.current_difficulty = 1 ∧
    GameState.initial.accuracy_window.maxlen = 30 ∧
    effectiveWindowCap GameState.initial.current_difficulty = some 45 ∧
    GameState.initial.accuracy_window.maxlen ≠ 45 := by decide

/-- C2 amended: the capacity invariant
`accuracy_window.maxlen = requirement[min(difficulty, MAX_LEVEL-1)].window_capacity`
holds for every state restored by `from_dict` and is preserved by every
per-question mutation (level-up and level-down included); a freshly
created state, however, has capacity 30 rather than 45. -/
theorem capacity_invariant_c2 :
    (∀ (rec : SaveRecord) (st : GameState),
        GameState.fromDict rec windowSizes = .ok st →
        effectiveWindowCap st.current_difficulty
          = some st.accuracy_window.maxlen) ∧
    (∀ (s : GameState) (b : Bool) (st : GameState),
        effectiveWindowCap s.current_difficulty = some s.accuracy_window.maxlen →
        1 ≤ s.current_difficulty → s.current_difficulty ≤ 5 →
        processAnswer s b = some st →
        effectiveWindowCap st.current_difficulty
          = some st.accuracy_window.maxlen) ∧
    GameState.initial.accuracy_window.maxlen = 30 := by
  refine ⟨?_, ?_, rfl⟩
  · intro rec st h
    obtain ⟨w, accW, streakW, hwin, hacc, _, rfl⟩ := fromDict_ok_spec rec st h
    show effectiveWindowCap rec.difficulty = some accW.maxlen
    rw [base64ToBitfield_ok_maxlen _ _ _ _ hacc]
    exact hwin
  · intro s b st hcap hd1 hd5 h
    exact processAnswer_cap s b st hcap hd1 hd5 h

theorem capacity_invariant_c2_witness :
    effectiveWindowCap (⟨3, ⟨[], 90⟩, []⟩ : GameState).current_difficulty
      = some (⟨3, ⟨[], 90⟩, []⟩ : GameState).accuracy_window.maxlen :=
  capacity_invariant_c2.1 ⟨some 1, 3, [], []⟩ ⟨3, ⟨[], 90⟩, []⟩ (by decide)

/-- C3 counterexample: a correctly answered question never triggers the
regression check. At difficulty 2 with 25 incorrect and 5 correct
entries, a correct answer leaves a post-level-up-check state satisfying
every regression condition (31 ≥ max(5, 90 // 3) samples, accuracy
19.4% < 75 − 10), yet the difficulty stays 2 instead of dropping to 1,
because `_process_answer` only calls `check_difficulty_regression` on
incorrect answers. -/
theorem regression_on_incorrect_c3_counterexample :
    checkLevelProgress
        ⟨2, ⟨List.replicate 25 false ++ List.replicate 5 true, 90⟩, []⟩ true
      = some (⟨2, ⟨List.replicate 25 false ++ List.replicate 5 true ++ [true], 90⟩,
          []⟩, false) ∧
    (1 : Nat) < 2 ∧
    max 5 (90 / 3)
      ≤ (List.replicate 25 false ++ List.replicate 5 true ++ [true]).length ∧
    (LEVEL_REQUIREMENTS (2 - 1)).bind (·.accuracy) = some 75 ∧
    100 * (List.replicate 25 false ++ List.replicate 5 true ++ [true]).count true
      < (75 - 10)
        * (List.replicate 25 false ++ List.replicate 5 true ++ [true]).length ∧
    processAnswer
        ⟨2, ⟨List.replicate 25 false ++ List.replicate 5 true, 90⟩, []⟩ true
      = some ⟨2, ⟨List.replicate 25 false ++ List.replicate 5 true ++ [true], 90⟩,
          []⟩ ∧
    (⟨2, ⟨List.replicate 25 false ++ List.replicate 5 true ++ [true], 90⟩, []⟩
      : GameState).current_difficulty ≠ 2 - 1 := by decide

/-- C3 amended: on an incorrectly answered question, after the level-up
check, if the difficulty exceeds 1, the accuracy window holds at least
`max(5, capacity // 3)` samples, and the rolling accuracy is below the
previous level's threshold minus 10 points, then the difficulty is
decremented, the streak window cleared, and the accuracy window resized
fresh and empty to the lower level's capacity. (On correctly answered
questions the regression check does not run at all.) -/
theorem regression_on_incorrect_c3 (s s1 : GameState) (u : Bool) (aTh w : Nat)
    (hclp : checkLevelProgress s false = some (s1, u))
    (hd : 1 < s1.current_difficulty)
    (hne : s1.accuracy_window.data ≠ [])
    (hmin : max 5 (s1.accuracy_window.maxlen / 3) ≤ s1.accuracy_window.data.length)
    (hth : (LEVEL_REQUIREMENTS (s1.current_difficulty - 1)).bind (·.accuracy)
      = some aTh)
    (hw : (LEVEL_REQUIREMENTS (s1.current_difficulty - 1)).bind (·.window)
      = some w)
    (hacc : 100 * s1.accuracy_window.data.count true
      < (aTh - 10) * s1.accuracy_window.data.length) :
    processAnswer s false = some ⟨s1.current_difficulty - 1, ⟨[], w⟩, []⟩ := by
  have hreg : checkDifficultyRegression s1
      = some (⟨s1.current_difficulty - 1, ⟨[], w⟩, []⟩, true) := by
    rw [checkDifficultyRegression, if_neg (by omega), if_neg hne,
      if_neg (by omega)]
    cases hreq : LEVEL_REQUIREMENTS (s1.current_difficulty - 1) with
    | none => rw [hreq] at hth; cases hth
    | some req =>
      rw [hreq] at hth hw
      replace hth : req.accuracy = some aTh := hth
      replace hw : req.window = some w := hw
      show Option.bind req.accuracy (fun accTh =>
          if 100 * s1.accuracy_window.data.count true
              < (accTh - 10) * s1.accuracy_window.data.length then
            Option.bind req.window (fun newSize =>
              some (⟨s1.current_difficulty - 1, ⟨[], newSize⟩, []⟩, true))
          else some (s1, false))
        = some (⟨s1.current_difficulty - 1, ⟨[], w⟩, []⟩, true)
      rw [hth, Option.some_bind, if_pos hacc, hw, Option.some_bind]
  replace hpa : processAnswer s false = (checkLevelProgress s false).bind
      (fun r => (checkDifficultyRegression r.1).bind fun r2 => some r2.1) := rfl
  rw [hpa, hclp]
  show (checkDifficultyRegression s1).bind (fun r2 => some r2.1) = _
  rw [hreg]
  rfl

theorem regression_on_incorrect_c3_witness :
    processAnswer
        ⟨2, ⟨List.replicate 24 false ++ List.replicate 5 true, 90⟩, []⟩ false
      = some ⟨1, ⟨[], 45⟩, []⟩ :=
  regression_on_incorrect_c3
    ⟨2, ⟨List.replicate 24 false ++ List.replicate 5 true, 90⟩, []⟩
    ⟨2, ⟨List.replicate 24 false ++ List.replicate 5 true ++ [false], 90⟩, []⟩
    false 75 45
    (by decide) (by decide) (by decide) (by decide) (by decide) (by decide)
    (by decide)

/-- C4 counterexample: with a corrupt primary (so the preceding load
failed over to the backup) and a healthy backup, the very first
micro-step of `save_state` — `state_file.replace(backup_file)` — already
replaces the backup's previous healthy content with the corrupt primary,
before the new primary has been written. -/
theorem backup_preserved_c4_counterexample :
    primaryLoadFailed
      ⟨some .corrupt, some (.valid GameState.initial.toDict)⟩ windowSizes ∧
    (saveRotate ⟨some .corrupt, some (.valid GameState.initial.toDict)⟩).backup
      = some .corrupt ∧
    some FileContent.corrupt ≠ some (FileContent.valid GameState.initial.toDict) :=
  ⟨⟨.corrupt, rfl, rfl⟩, rfl, by decide⟩

/-- C4 amended: whenever a primary save exists — in particular after a
load in which the primary failed — `save_state` first moves the old
primary over the backup (destroying the backup's previous content) and
only then writes the new primary; the backup therefore ends holding the
old, possibly corrupt, primary content rather than its prior generation. -/
theorem backup_preserved_c4 (fs : SaveFiles) (s : GameState)
    (hfail : primaryLoadFailed fs windowSizes) :
    (saveRotate fs).backup = fs.primary ∧
    saveState fs s = ⟨some (.valid s.toDict), fs.primary⟩ := by
  obtain ⟨p, bk⟩ := fs
  obtain ⟨c, hc, _⟩ := hfail
  replace hc : p = some c := hc
  subst hc
  exact ⟨rfl, rfl⟩

theorem backup_preserved_c4_witness :
    (saveRotate ⟨some .corrupt, some (.valid GameState.initial.toDict)⟩).backup
      = some FileContent.corrupt ∧
    saveState ⟨some .corrupt, some (.valid GameState.initial.toDict)⟩
        GameState.initial
      = ⟨some (.valid GameState.initial.toDict), some .corrupt⟩ :=
  backup_preserved_c4
    ⟨some .corrupt, some (.valid GameState.initial.toDict)⟩
    GameState.initial ⟨.corrupt, rfl, rfl⟩

/-- C5 level-up scenario: from the fresh state (difficulty 1, both
windows empty), fifteen consecutive correct answers through
`_process_answer` end with difficulty 2, both windows empty, and an
accuracy window capacity of 90 (level 2's window). -/
theorem levelup_scenario_c5 :
    runAnswers (List.replicate 15 true) GameState.initial
      = some ⟨2, ⟨[], 90⟩, []⟩ := by decide

/-- C6 max level is terminal: from any reachable state at difficulty 5
(MAX_LEVEL), processing an answer — correct or incorrect — leaves the
difficulty at 5: the level-up check returns immediately at max level, and
the regression check cannot fire because reachable level-5 states always
carry an empty accuracy window. -/
theorem max_level_terminal_c6 (s s1 : GameState) (b : Bool)
    (hr : Reachable s) (hd : s.current_difficulty = 5)
    (h : processAnswer s b = some s1) : s1.current_difficulty = 5 := by
  obtain ⟨_, _, _, _, h5, _⟩ := reachable_inv s hr
  obtain ⟨hacc, _⟩ := h5 hd
  have hreg : checkDifficultyRegression s = some (s, false) := by
    rw [checkDifficultyRegression, if_neg (by omega), if_pos hacc]
  cases b
  · replace h : (checkLevelProgress s false).bind
        (fun r => (checkDifficultyRegression r.1).bind fun r2 => some r2.1)
        = some s1 := h
    rw [checkLevelProgress_maxLevel s false hd] at h
    replace h : (checkDifficultyRegression s).bind (fun r2 => some r2.1)
        = some s1 := h
    rw [hreg] at h
    replace h : some s = some s1 := h
    obtain rfl := Option.some.inj h
    exact hd
  · replace h : (checkLevelProgress s true).bind (fun r => some r.1) = some s1 := h
    rw [checkLevelProgress_maxLevel s true hd] at h
    replace h : some s = some s1 := h
    obtain rfl := Option.some.inj h
    exact hd

set_option maxRecDepth 100000 in
theorem max_level_terminal_c6_witness :
    runAnswers (List.replicate 100 true) GameState.initial
      = some ⟨5, ⟨[], 90⟩, []⟩ ∧
    processAnswer ⟨5, ⟨[], 90⟩, []⟩ true = some ⟨5, ⟨[], 90⟩, []⟩ ∧
    (⟨5, ⟨[], 90⟩, []⟩ : GameState).current_difficulty = 5 := by
  have hrun : runAnswers (List.replicate 100 true) GameState.initial
      = some ⟨5, ⟨[], 90⟩, []⟩ := by decide
  exact ⟨hrun, by decide,
    max_level_terminal_c6 ⟨5, ⟨[], 90⟩, []⟩ ⟨5, ⟨[], 90⟩, []⟩ true
      (runAnswers_reachable _ _ _ Reachable.init hrun) rfl (by decide)⟩

/-- C7 version rejection: for a stored record carrying a `version` field,
`from_dict` fails with the version error exactly when that version
differs from the supported version 1; a version-1 record is never
rejected for its version (later failures are key or codec errors), and
no other version is ever coerced or migrated. -/
theorem version_rejection_c7 (rec : SaveRecord) (ws : Nat → Option Nat) (v : Nat)
    (hv : rec.version = some v) :
    GameState.fromDict rec ws = .error .versionMismatch ↔ v ≠ 1 := by
  constructor
  · intro h
    by_contra hv1
    replace hv1 : v = 1 := by omega
    exact fromDict_versionOk_no_mismatch rec ws
      (by rw [hv, hv1]; rfl) h
  · intro hne
    rw [GameState.fromDict, if_pos (by rw [hv]; simpa [FORMAT_VERSION] using hne)]

theorem version_rejection_c7_witness :
    GameState.fromDict ⟨some 2, 1, [], []⟩ windowSizes
      = .error .versionMismatch :=
  (version_rejection_c7 ⟨some 2, 1, [], []⟩ windowSizes 2 rfl).mpr (by decide)

/-- C8 counterexample: a truncated buffer does not always fail. The
base-64 string of the 2-byte buffer `[0x55, 0xAA]` — shorter than the
5-byte header — decodes successfully to the empty window under the
accuracy key, because its first two bytes happen to equal the keyed
checksum of the empty remainder. -/
theorem decode_total_c8_counterexample :
    b64decode ['V', 'a', 'o', '='] = .ok [85, 170] ∧
    [85, 170].length < 5 ∧
    base64ToBitfield ['V', 'a', 'o', '='] SAVE_KEY_ACCURACY 45
      = .ok ⟨[], 45⟩ := by decide

/-- C8 amended: decoding is total and bounds-checked — for every input
string, key, and capacity it either returns a window respecting the
capacity, or fails with the malformed-base-64 error (exactly when the
base-64 layer rejects the string), or fails with the integrity error
(exactly when the first two decoded bytes differ from the keyed checksum
of the remainder); short buffers are handled by truncating slices and
never cause an out-of-range access, though one whose leading bytes match
the checksum decodes successfully rather than failing. -/
theorem decode_total_c8 (s : List Char) (key cap : Nat) :
    (∃ w, base64ToBitfield s key cap = .ok w
      ∧ w.maxlen = cap ∧ w.data.length ≤ cap)
    ∨ (base64ToBitfield s key cap = .error .badBase64
      ∧ b64decode s = .error .badBase64)
    ∨ (∃ bs, b64decode s = .ok bs
      ∧ base64ToBitfield s key cap = .error .integrity
      ∧ beNat (bs.take 2)
        ≠ computeChecksum ((bs.drop 2).take 2 ++ (bs.drop 4).take 1 ++ bs.drop 5)
            key) := by
  by_cases hnil : s = []
  · left
    refine ⟨⟨[], cap⟩, ?_, rfl, by simp⟩
    rw [base64ToBitfield, if_pos hnil]
  · cases hb : b64decode s with
    | error e =>
      have he : e = .badBase64 := b64decode_error s e hb
      subst he
      right; left
      constructor
      · rw [base64ToBitfield, if_neg hnil, hb]
      · rfl
    | ok bs =>
      by_cases hcs : computeChecksum ((bs.drop 2).take 2 ++ (bs.drop 4).take 1
          ++ bs.drop 5) key ≠ beNat (bs.take 2)
      · right; right
        refine ⟨bs, rfl, ?_, fun hh => hcs hh.symm⟩
        rw [base64ToBitfield, if_neg hnil, hb]
        dsimp only
        rw [if_pos hcs]
      · left
        refine ⟨BDeque.ofList (List.take (beNat ((bs.drop 2).take 2))
            (leftPadFalse ((bs.drop 5).length * 8) (natBits (beNat (bs.drop 5))))) cap,
          ?_, rfl, BDeque.ofList_length_le _ _⟩
        rw [base64ToBitfield, if_neg hnil, hb]
        dsimp only
        rw [if_neg hcs]

/-- C9 no level-up on an incorrect answer: for every reachable state,
running the level-up check with an incorrect outcome never changes the
difficulty — reachable states always hold a streak strictly below the
threshold, and an incorrect answer cannot extend it. -/
theorem no_levelup_on_incorrect_c9 (s : GameState) (p : GameState × Bool)
    (hr : Reachable s) (h : checkLevelProgress s false = some p) :
    p.1.current_difficulty = s.current_difficulty := by
  obtain ⟨hd1, hd5, hlen, hcap, h5, hstreak⟩ := reachable_inv s hr
  by_cases hd : s.current_difficulty = 5
  · rw [checkLevelProgress_maxLevel s false hd] at h
    obtain rfl := Option.some.inj h
    rfl
  · obtain ⟨d, acc, streak⟩ := s
    simp only at hd1 hd5 hlen hcap h5 hstreak hd
    rw [checkLevelProgress_eq d acc streak false hd1 (by omega)] at h
    by_cases hempty : (acc.append false).data = []
    · rw [if_pos hempty] at h
      obtain rfl := Option.some.inj h
      rfl
    · rw [if_neg hempty] at h
      have hnostreak : ¬(streakThOf d
          ≤ (if accThOf d * (acc.append false).data.length
              ≤ 100 * (acc.append false).data.count true then
              (if false then streak ++ [true] else streak) else []).length
          ∧ accThOf d * (acc.append false).data.length
            ≤ 100 * (acc.append false).data.count true) := by
        rintro ⟨h1, h2⟩
        rw [if_pos h2] at h1
        replace h1 : streakThOf d ≤ streak.length := h1
        have := hstreak (by omega)
        omega
      rw [if_neg hnostreak] at h
      obtain rfl := Option.some.inj h
      rfl

theorem no_levelup_on_incorrect_c9_witness :
    checkLevelProgress GameState.initial false
      = some (⟨1, ⟨[false], 30⟩, []⟩, false) ∧
    (⟨1, ⟨[false], 30⟩, []⟩ : GameState).current_difficulty
      = GameState.initial.current_difficulty := by
  have hc : checkLevelProgress GameState.initial false
      = some (⟨1, ⟨[false], 30⟩, []⟩, false) := by decide
  exact ⟨hc, no_levelup_on_incorrect_c9 GameState.initial _ Reachable.init hc⟩

/-- C10 restored streak window is bounded: any record accepted by
`from_dict` yields a streak window with at most the effective level's
window-capacity entries — the decoded streak is truncated through a
deque of that capacity (keeping the newest), even though streak blobs may
validly encode more. -/
theorem restored_streak_bounded_c10 (rec : SaveRecord) (st : GameState)
    (h : GameState.fromDict rec windowSizes = .ok st) :
    ∃ w, effectiveWindowCap st.current_difficulty = some w ∧
      st.streak_window.length ≤ w := by
  obtain ⟨w, accW, streakW, hwin, _, hstr, rfl⟩ := fromDict_ok_spec rec st h
  exact ⟨w, hwin, base64ToBitfield_ok_length _ _ _ _ hstr⟩

set_option maxRecDepth 100000 in
theorem restored_streak_bounded_c10_witness :
    GameState.fromDict
        (GameState.toDict ⟨1, ⟨[], 45⟩, List.replicate 50 true⟩) windowSizes
      = .ok ⟨1, ⟨[], 45⟩, List.replicate 45 true⟩ ∧
    (⟨1, ⟨[], 45⟩, List.replicate 45 true⟩ : GameState).streak_window.length
      ≤ 45 := by
  have hld : GameState.fromDict
      (GameState.toDict ⟨1, ⟨[], 45⟩, List.replicate 50 true⟩) windowSizes
      = .ok ⟨1, ⟨[], 45⟩, List.replicate 45 true⟩ := by decide
  refine ⟨hld, ?_⟩
  obtain ⟨w, hw, hle⟩ := restored_streak_bounded_c10 _ _ hld
  have h45 : (45 : Nat) = w := Option.some.inj hw
  rw [← h45] at hle
  exact hle

end PortStudy
